import Mathlib

/-!
Shallow embedding of the metrics aggregation core of `src/src/main.rs`
(an actix-web service built on the `prometheus_client` crate).

The repository's own code wires together `Family<AppLabels, Counter>`,
`Family<LatencyLabels, Histogram>`, `exponential_buckets`, and the text
encoder from `prometheus_client`; those library operations are embedded
here by their semantics (a `Family` is a lazily-populated mapping from a
label set to a metric instance with get-or-create semantics guarded by a
lock; a `Counter` is a monotonically increasing natural; a `Histogram`
holds per-bucket counts keyed by upper bounds plus a running sum and
count).  Float (`f64`) values are embedded as exact rationals `ℚ`; the
program's bucket parameters (10.0, 5.0 and their powers of 5 up to 6250)
are all exactly representable in `f64`, so the comparisons performed by
the bucket search coincide with the rational ones.
-/

namespace RsP8s

/-- Embeds `enum Method { Get, Post }` from `main.rs`. -/
inductive Method where
  | Get : Method
  | Post : Method
deriving DecidableEq

/-- Embeds `struct AppLabels { method, script_name, namespace, app }`
(`namespace` is a Lean keyword, embedded as `nspace`). -/
structure AppLabels where
  method : Method
  script_name : String
  nspace : String
  app : String
deriving DecidableEq

/-- Embeds `struct LatencyLabels { method, type, module, status }`
(`type` embedded as `rtype`; `status : i8` embedded as `ℤ`). -/
structure LatencyLabels where
  method : Method
  rtype : String
  module : String
  status : ℤ
deriving DecidableEq

/-- Embeds `struct AppInfo { script_name, namespace, app }`, the JSON body
of the `script_handler` route. -/
structure AppInfo where
  script_name : String
  nspace : String
  app : String

/-- Embeds `struct LatencyInfo { duration, type, module, status }`, the JSON
body of the `duration_handler` route (`duration : i64` embedded as `ℤ`). -/
structure LatencyInfo where
  duration : ℤ
  rtype : String
  module : String
  status : ℤ

section FamilyMap

variable {K : Type} {V : Type} [DecidableEq K]

/-- Lookup in a family's label-to-metric mapping (the `HashMap` inside
`prometheus_client`'s `Family`), embedded as an association list. -/
def famFind : List (K × V) → K → Option V
  | [], _ => none
  | (k', v) :: rest, k => if k' = k then some v else famFind rest k

/-- Embeds `Family::get_or_create`: under the family's write lock the entry
for `k` is created from the family's constructor exactly when it is absent
(`entry(..).or_insert_with(constructor)`); an existing entry is reused. -/
def getOrCreate (m : List (K × V)) (k : K) (init : V) : List (K × V) :=
  if (famFind m k).isSome then m else (k, init) :: m

/-- Mutation of the metric instance stored at key `k` (the instance handed
back by `get_or_create` is the one stored in the mapping, shared through an
`Arc`, so mutating it mutates the mapping's entry; `HashMap` keys are
unique, so the first matching entry is the entry). -/
def famUpdate : List (K × V) → K → (V → V) → List (K × V)
  | [], _, _ => []
  | (k', v) :: rest, k, f =>
      if k' = k then (k', f v) :: rest else (k', v) :: famUpdate rest k f

/-- One full family operation as performed by the handlers:
`family.get_or_create(labels).mutate()`. -/
def famOp (m : List (K × V)) (k : K) (init : V) (f : V → V) : List (K × V) :=
  famUpdate (getOrCreate m k init) k f

/-- Family states reachable from the empty family (`Family::default()` or
`Family::new_with_constructor` both start with an empty mapping) by
get-or-create-then-mutate operations. -/
inductive FamReach : List (K × V) → Prop where
  | empty : FamReach []
  | step (m : List (K × V)) (k : K) (init : V) (f : V → V) :
      FamReach m → FamReach (famOp m k init f)

/-- The keys currently tracked by a family, in iteration order. -/
def familyKeys (m : List (K × V)) : List K := m.map Prod.fst

/-- The label sets of the data lines the text encoder emits for one family
block: the encoder walks the family's mapping once, emitting the data
line(s) of each entry as it is visited. -/
def encodeBlockKeys (m : List (K × V)) : List K := m.map Prod.fst

end FamilyMap

/-- Embeds `prometheus_client`'s `Histogram`: a list of
(upper bound, bucket count) pairs, a running sum and a running count. -/
structure Histogram where
  buckets : List (ℚ × ℕ)
  sum : ℚ
  count : ℕ
deriving DecidableEq

/-- Embeds `Histogram::new(buckets)`: every supplied upper bound starts with
a zero count; sum and count start at zero. -/
def Histogram.new (bs : List ℚ) : Histogram :=
  { buckets := bs.map (fun b => (b, 0)), sum := 0, count := 0 }

/-- The bucket-search rule of `Histogram::observe`: index of the first
bucket whose upper bound is ≥ the observed value (`find` over the bucket
list with predicate `upper_bound >= v`), `none` when the value exceeds
every bound (the observation then lands only in the implicit overflow
bucket). -/
def bucketIndex (v : ℚ) : List ℚ → Option ℕ
  | [] => none
  | ub :: rest => if v ≤ ub then some 0 else (bucketIndex v rest).map (· + 1)

/-- Increment the count of the first bucket whose upper bound is ≥ `v`,
leaving every other bucket untouched (the mutation `observe` performs on
the bucket list). -/
def incFirst (v : ℚ) : List (ℚ × ℕ) → List (ℚ × ℕ)
  | [] => []
  | (ub, c) :: rest =>
      if v ≤ ub then (ub, c + 1) :: rest else (ub, c) :: incFirst v rest

/-- Embeds `Histogram::observe(v)`: adds `v` to the running sum, increments
the running count, and increments the first bucket whose upper bound is
≥ `v` (no explicit bucket when `v` exceeds all bounds: the observation is
then visible only in the implicit overflow bucket). -/
def observe (h : Histogram) (v : ℚ) : Histogram :=
  { buckets := incFirst v h.buckets, sum := h.sum + v, count := h.count + 1 }

/-- The ordered upper bounds of a histogram's buckets. -/
def hBounds (h : Histogram) : List ℚ := h.buckets.map Prod.fst

/-- The count recorded in bucket `j`, when there is a bucket `j`. -/
def bucketCountAt (h : Histogram) (j : ℕ) : Option ℕ :=
  (h.buckets[j]?).map Prod.snd

/-- The count of the implicit overflow (+∞) bucket: observations not
captured by any explicit bucket, i.e. the running count minus the explicit
bucket counts (as an integer, so the identity needs no side condition). -/
def overflowCount (h : Histogram) : ℤ :=
  (h.count : ℤ) - ((h.buckets.map Prod.snd).sum : ℤ)

/-- Embeds `exponential_buckets(start, factor, length)`:
`(0..length).map(|i| start * factor.powf(i))`. -/
def exponential_buckets (start factor : ℚ) (length : ℕ) : List ℚ :=
  (List.range length).map (fun i => start * factor ^ i)

/-- Embeds `CountMetrics::inc_requests`:
`self.requests.get_or_create(app_labels).inc()` — the `Counter` constructor
default is 0 and `inc` adds exactly 1. -/
def inc_requests (m : List (AppLabels × ℕ)) (app_labels : AppLabels) :
    List (AppLabels × ℕ) :=
  famOp m app_labels 0 (· + 1)

/-- The histogram constructor installed on the latency family in `main`:
`Histogram::new(exponential_buckets(10.0, 5.0, 5))`. -/
def latencyConstructor : Histogram :=
  Histogram.new (exponential_buckets 10 5 5)

/-- Embeds `HisgMetrics::hisg_request`:
`self.requests_hig.get_or_create(ll).observe(d)`. -/
def hisg_request (m : List (LatencyLabels × Histogram)) (ll : LatencyLabels)
    (d : ℚ) : List (LatencyLabels × Histogram) :=
  famOp m ll latencyConstructor (fun h => observe h d)

/-- The fixed label set built by `test_handler`:
method=GET, namespace="test", script_name="test-script", app="test". -/
def testLabels : AppLabels :=
  { method := Method.Get
    nspace := "test"
    script_name := "test-script"
    app := "test" }

/-- The label set built by `script_handler` from its JSON body: the method
dimension is fixed to `Post` by the handler, never read from the body. -/
def scriptLabels (body : AppInfo) : AppLabels :=
  { method := Method.Post
    nspace := body.nspace
    script_name := body.script_name
    app := body.app }

/-- The label set built by `duration_handler` from its JSON body: the
method dimension is fixed to `Post` by the handler, never read from the
body. -/
def durationLabels (body : LatencyInfo) : LatencyLabels :=
  { method := Method.Post
    rtype := body.rtype
    module := body.module
    status := body.status }

/-- Embeds `test_handler`: increments the counter family at the fixed test
label set and answers "okay". -/
def test_handler (m : List (AppLabels × ℕ)) : List (AppLabels × ℕ) × String :=
  (inc_requests m testLabels, "okay")

/-- Embeds `script_handler`: increments the counter family at the label set
built from the body (method fixed to POST) and answers "post_okay". -/
def script_handler (m : List (AppLabels × ℕ)) (body : AppInfo) :
    List (AppLabels × ℕ) × String :=
  (inc_requests m (scriptLabels body), "post_okay")

/-- Embeds `duration_handler`: observes `body.duration as f64` on the
histogram family at the label set built from the body (method fixed to
POST) and answers "post_latency_okay". -/
def duration_handler (m : List (LatencyLabels × Histogram))
    (body : LatencyInfo) : List (LatencyLabels × Histogram) × String :=
  (hisg_request m (durationLabels body) (body.duration : ℚ),
   "post_latency_okay")

/-! Scrape operation (`metrics_handler`). -/

/-- An HTTP response as built by `metrics_handler` on success: status 200,
the OpenMetrics content type, and the full encoded body. -/
structure HttpResponse where
  status : ℕ
  contentType : String
  body : String
deriving DecidableEq

/-- The outcome of running a handler: a returned response, or a panic
(`unwrap` on an `Err`/poisoned lock), which actix surfaces to the caller
as a failed request — never as a normal body. -/
inductive HandlerOutcome where
  | ok : HttpResponse → HandlerOutcome
  | panicked : String → HandlerOutcome
deriving DecidableEq

/-- Whether a handler outcome is a normally returned response. -/
def HandlerOutcome.isOk : HandlerOutcome → Bool
  | .ok _ => true
  | .panicked _ => false

/-- Embeds `metrics_handler`, parametric in the two fallible steps it
performs: `state.lock()` (whose failure — a poisoned mutex — is `none`)
and `encode(&mut body, &state.registry)` (whose failure is `Except.error`).
Both results are `unwrap`ped: a failure of either panics the handler
before any response is built, so no partial `body` ever escapes. -/
def metrics_handler {σ : Type} (lockResult : Option σ)
    (encodeFn : σ → Except String String) : HandlerOutcome :=
  match lockResult with
  | none => .panicked "lock poisoned"
  | some st =>
    match encodeFn st with
    | .error e => .panicked e
    | .ok body =>
        .ok { status := 200
              contentType :=
                "application/openmetrics-text; version=1.0.0; charset=utf-8"
              body := body }

/-! Sharing of family storage between handlers and registry (C9).
`Family` is `#[derive(Clone)]` around an `Arc<RwLock<HashMap<..>>>`, so
`metrics.requests.clone()` in `main` clones the `Arc`: the clone and the
original alias one storage cell.  This is embedded with an explicit heap
of storage cells addressed by references. -/

/-- A reference to a counter-family storage cell (the `Arc` pointer). -/
structure FamilyRef where
  ref : ℕ
deriving DecidableEq

/-- The heap of counter-family storage cells. -/
structure CounterHeap where
  store : ℕ → List (AppLabels × ℕ)

/-- Embeds `Family::clone` (derived): the `Arc` is cloned, so the clone
points at the very same storage cell. -/
def cloneFamily (f : FamilyRef) : FamilyRef := f

/-- The `requests` family created in `main` by `Family::default()`. -/
def mainRequestsFamily : FamilyRef := { ref := 0 }

/-- The handle registered into the `Registry` in `main`:
`state.registry.register("requests", "Count of requests",
metrics.requests.clone())`. -/
def registeredRequestsFamily : FamilyRef := cloneFamily mainRequestsFamily

/-- The initial heap: the single counter-family cell holds the empty
mapping of `Family::default()`. -/
def initialCounterHeap : CounterHeap := { store := fun _ => [] }

/-- `inc_requests` performed through a family handle: mutates the storage
cell the handle points at, leaving every other cell unchanged. -/
def heapIncRequests (hp : CounterHeap) (f : FamilyRef) (l : AppLabels) :
    CounterHeap :=
  { store := fun r =>
      if r = f.ref then inc_requests (hp.store r) l else hp.store r }

/-- The counter value the registry's encoder reads for label set `l`: it
dereferences the handle that was registered and looks the label set up in
that cell's mapping. -/
def encodedCounterValue (hp : CounterHeap) (f : FamilyRef) (l : AppLabels) :
    Option ℕ :=
  famFind (hp.store f.ref) l

/-! Concurrency model for the get-or-create race (C4).  In
`prometheus_client`, `get_or_create` takes the family's write lock to run
`entry(..).or_insert_with(constructor)`, so lookup-or-insert is one atomic
step; `Counter::inc` is an atomic `fetch_add` on the instance stored in
the mapping (shared through an `Arc`, never replaced or removed), so it
too is one atomic step acting on the mapping's entry.  A thread performing
`inc_requests(l)` is thus the two-step program
`[getOrCreateStep l, incStep l]`, and concurrent execution is any
interleaving of the two threads' steps. -/

/-- One atomic step of a thread acting on the counter family. -/
inductive CounterStep where
  | getOrCreateStep : AppLabels → CounterStep
  | incStep : AppLabels → CounterStep
deriving DecidableEq

/-- Effect of one atomic step on the family mapping. -/
def runStep (m : List (AppLabels × ℕ)) : CounterStep → List (AppLabels × ℕ)
  | .getOrCreateStep l => getOrCreate m l 0
  | .incStep l => famUpdate m l (· + 1)

/-- Effect of a sequence of atomic steps, in order. -/
def runSteps (m : List (AppLabels × ℕ)) (steps : List CounterStep) :
    List (AppLabels × ℕ) :=
  steps.foldl runStep m

/-- The step sequence of one thread executing
`CountMetrics::inc_requests(l)`. -/
def incThread (l : AppLabels) : List CounterStep :=
  [CounterStep.getOrCreateStep l, CounterStep.incStep l]

/-- `Interleave xs ys zs` holds when `zs` is an interleaving of `xs` and
`ys` that preserves each thread's program order. -/
inductive Interleave : List CounterStep → List CounterStep →
    List CounterStep → Prop where
  | nil : Interleave [] [] []
  | left (x : CounterStep) (xs ys zs : List CounterStep) :
      Interleave xs ys zs → Interleave (x :: xs) ys (x :: zs)
  | right (y : CounterStep) (xs ys zs : List CounterStep) :
      Interleave xs ys zs → Interleave xs (y :: ys) (y :: zs)

/-! Helper lemmas about the family mapping. -/

section FamilyLemmas

variable {K : Type} {V : Type} [DecidableEq K]

theorem famFind_getOrCreate_self (m : List (K × V)) (k : K) (init : V) :
    famFind (getOrCreate m k init) k = some ((famFind m k).getD init) := by
  unfold getOrCreate
  cases h : famFind m k with
  | none => simp [h, famFind]
  | some v => simp [h]

theorem famFind_famUpdate_self (m : List (K × V)) (k : K) (f : V → V) :
    famFind (famUpdate m k f) k = (famFind m k).map f := by
  induction m with
  | nil => rfl
  | cons p rest ih =>
    rcases p with ⟨k', v⟩
    by_cases hk : k' = k
    · simp [famUpdate, famFind, hk]
    · simp [famUpdate, famFind, hk, ih]

theorem famFind_getOrCreate_ne (m : List (K × V)) (k k₂ : K) (init : V)
    (h : k ≠ k₂) : famFind (getOrCreate m k init) k₂ = famFind m k₂ := by
  unfold getOrCreate
  by_cases hs : (famFind m k).isSome
  · simp [hs]
  · simp [hs, famFind, h]

theorem famFind_famUpdate_ne (m : List (K × V)) (k k₂ : K) (f : V → V)
    (h : k ≠ k₂) : famFind (famUpdate m k f) k₂ = famFind m k₂ := by
  induction m with
  | nil => rfl
  | cons p rest ih =>
    rcases p with ⟨k', v⟩
    by_cases hk : k' = k
    · have hne : k' ≠ k₂ := hk ▸ h
      simp [famUpdate, famFind, hk, hne, h]
    · by_cases hk₂ : k' = k₂
      · simp [famUpdate, famFind, hk, hk₂, Ne.symm h]
      · simp [famUpdate, famFind, hk, hk₂, ih]

theorem famFind_famOp_self (m : List (K × V)) (k : K) (init : V) (f : V → V) :
    famFind (famOp m k init f) k = some (f ((famFind m k).getD init)) := by
  unfold famOp
  rw [famFind_famUpdate_self, famFind_getOrCreate_self]
  rfl

theorem famFind_famOp_ne (m : List (K × V)) (k k₂ : K) (init : V) (f : V → V)
    (h : k ≠ k₂) : famFind (famOp m k init f) k₂ = famFind m k₂ := by
  unfold famOp
  rw [famFind_famUpdate_ne _ _ _ _ h, famFind_getOrCreate_ne _ _ _ _ h]

theorem famFind_inc_requests_self (m : List (AppLabels × ℕ)) (l : AppLabels) :
    famFind (inc_requests m l) l = some ((famFind m l).getD 0 + 1) :=
  famFind_famOp_self m l 0 (· + 1)

end FamilyLemmas

/-- C1: for every LabelSet, `inc_requests` locates or creates the
zero-valued Counter for that LabelSet and increments it by exactly 1 (an
absent entry reads as the freshly created 0, so the stored value becomes
the previous value, defaulted to 0, plus 1); and incrementing the test
LabelSet (method=GET, namespace="test", script_name="test-script",
app="test") three times via `test_handler` starting from the empty family
leaves that LabelSet's counter equal to 3. -/
theorem inc_requests_creates_then_adds_one :
    (∀ (m : List (AppLabels × ℕ)) (l : AppLabels),
        famFind (inc_requests m l) l = some ((famFind m l).getD 0 + 1)) ∧
    famFind (test_handler (test_handler (test_handler []).1).1).1 testLabels
      = some 3 := by
  constructor
  · exact famFind_inc_requests_self
  · rfl

/-- C5: for all LabelSets `l₁ ≠ l₂`, incrementing `l₁` leaves `l₂`'s
counter value unchanged. -/
theorem inc_requests_frame (m : List (AppLabels × ℕ)) (l₁ l₂ : AppLabels)
    (h : l₁ ≠ l₂) : famFind (inc_requests m l₁) l₂ = famFind m l₂ :=
  famFind_famOp_ne m l₁ l₂ 0 (· + 1) h

/-- Witness for C5 at concrete distinct LabelSets: incrementing the test
LabelSet creates no entry for a LabelSet differing in the app field. -/
theorem inc_requests_frame_witness :
    famFind (inc_requests [] testLabels) { testLabels with app := "other" }
      = none := by
  rw [inc_requests_frame [] testLabels { testLabels with app := "other" }
    (by decide)]
  rfl

/-! Helper lemmas about the histogram bucket search. -/

theorem incFirst_map_fst (v : ℚ) (bs : List (ℚ × ℕ)) :
    (incFirst v bs).map Prod.fst = bs.map Prod.fst := by
  induction bs with
  | nil => rfl
  | cons p rest ih =>
    rcases p with ⟨ub, c⟩
    by_cases hb : v ≤ ub
    · simp [incFirst, hb]
    · simp [incFirst, hb, ih]

theorem incFirst_of_none (v : ℚ) (bs : List (ℚ × ℕ))
    (h : bucketIndex v (bs.map Prod.fst) = none) : incFirst v bs = bs := by
  induction bs with
  | nil => rfl
  | cons p rest ih =>
    rcases p with ⟨ub, c⟩
    simp only [List.map_cons, bucketIndex] at h
    by_cases hb : v ≤ ub
    · rw [if_pos hb] at h
      exact absurd h (by simp)
    · rw [if_neg hb] at h
      cases hx : bucketIndex v (rest.map Prod.fst) with
      | none => simp [incFirst, hb, ih hx]
      | some i => rw [hx] at h; simp at h

theorem incFirst_count_at_hit (v : ℚ) (bs : List (ℚ × ℕ)) (i : ℕ)
    (h : bucketIndex v (bs.map Prod.fst) = some i) :
    (incFirst v bs)[i]?.map Prod.snd
      = ((bs[i]?).map Prod.snd).map (· + 1) := by
  induction bs generalizing i with
  | nil => simp [bucketIndex] at h
  | cons p rest ih =>
    rcases p with ⟨ub, c⟩
    simp only [List.map_cons, bucketIndex] at h
    by_cases hb : v ≤ ub
    · rw [if_pos hb] at h
      injection h with h0
      subst h0
      simp [incFirst, hb]
    · rw [if_neg hb] at h
      cases hx : bucketIndex v (rest.map Prod.fst) with
      | none => rw [hx] at h; simp at h
      | some i' =>
        rw [hx] at h
        simp only [Option.map_some'] at h
        injection h with h1
        subst h1
        simp [incFirst, hb, ih i' hx]

theorem incFirst_count_at_miss (v : ℚ) (bs : List (ℚ × ℕ)) (i : ℕ)
    (h : bucketIndex v (bs.map Prod.fst) = some i) (j : ℕ) (hj : j ≠ i) :
    (incFirst v bs)[j]? = bs[j]? := by
  induction bs generalizing i j with
  | nil => simp [bucketIndex] at h
  | cons p rest ih =>
    rcases p with ⟨ub, c⟩
    simp only [List.map_cons, bucketIndex] at h
    by_cases hb : v ≤ ub
    · rw [if_pos hb] at h
      injection h with h0
      subst h0
      cases j with
      | zero => exact absurd rfl hj
      | succ j' => simp [incFirst, hb]
    · rw [if_neg hb] at h
      cases hx : bucketIndex v (rest.map Prod.fst) with
      | none => rw [hx] at h; simp at h
      | some i' =>
        rw [hx] at h
        simp only [Option.map_some'] at h
        injection h with h1
        subst h1
        cases j with
        | zero => simp [incFirst, hb]
        | succ j' =>
          have hji : j' ≠ i' := fun hji => hj (by rw [hji])
          simp [incFirst, hb, ih i' hx j' hji]

theorem incFirst_snd_sum_hit (v : ℚ) (bs : List (ℚ × ℕ)) (i : ℕ)
    (h : bucketIndex v (bs.map Prod.fst) = some i) :
    ((incFirst v bs).map Prod.snd).sum = (bs.map Prod.snd).sum + 1 := by
  induction bs generalizing i with
  | nil => simp [bucketIndex] at h
  | cons p rest ih =>
    rcases p with ⟨ub, c⟩
    simp only [List.map_cons, bucketIndex] at h
    by_cases hb : v ≤ ub
    · simp [incFirst, hb]
      omega
    · rw [if_neg hb] at h
      cases hx : bucketIndex v (rest.map Prod.fst) with
      | none => rw [hx] at h; simp at h
      | some i' =>
        have := ih i' hx
        simp [incFirst, hb, this]
        omega

/-- C2: a histogram observation of value `v` adds `v` to the running sum,
adds 1 to the running count, leaves all bucket boundaries unchanged, and
increases exactly one bucket count by 1: the first bucket whose upper
boundary is ≥ `v` when one exists (all other explicit buckets and the
implicit overflow bucket unchanged), or the implicit overflow bucket when
`v` exceeds every boundary (all explicit buckets unchanged). -/
theorem observe_updates_exactly_one_bucket (h : Histogram) (v : ℚ) :
    (observe h v).sum = h.sum + v ∧
    (observe h v).count = h.count + 1 ∧
    hBounds (observe h v) = hBounds h ∧
    (∀ i : ℕ, bucketIndex v (hBounds h) = some i →
      bucketCountAt (observe h v) i = (bucketCountAt h i).map (· + 1) ∧
      (∀ j : ℕ, j ≠ i → bucketCountAt (observe h v) j = bucketCountAt h j) ∧
      overflowCount (observe h v) = overflowCount h) ∧
    (bucketIndex v (hBounds h) = none →
      (∀ j : ℕ, bucketCountAt (observe h v) j = bucketCountAt h j) ∧
      overflowCount (observe h v) = overflowCount h + 1) := by
  refine ⟨rfl, rfl, incFirst_map_fst v h.buckets, ?_, ?_⟩
  · intro i hi
    refine ⟨?_, ?_, ?_⟩
    · simpa [bucketCountAt, observe, Option.map_map] using
        incFirst_count_at_hit v h.buckets i hi
    · intro j hj
      simp [bucketCountAt, observe,
        incFirst_count_at_miss v h.buckets i hi j hj]
    · simp only [overflowCount, observe,
        incFirst_snd_sum_hit v h.buckets i hi]
      push_cast
      ring
  · intro hnone
    have hfix := incFirst_of_none v h.buckets hnone
    refine ⟨?_, ?_⟩
    · intro j
      simp [bucketCountAt, observe, hfix]
    · simp only [overflowCount, observe, hfix]
      push_cast
      ring

/-- Witness for C2 at a concrete input: observing 7 on the freshly
constructed latency histogram lands in bucket 0 (boundary 10), raising its
count from 0 to 1. -/
theorem observe_updates_exactly_one_bucket_witness :
    bucketCountAt (observe latencyConstructor 7) 0
      = (bucketCountAt latencyConstructor 0).map (· + 1) :=
  ((observe_updates_exactly_one_bucket latencyConstructor 7).2.2.2.1 0
    (by norm_num [latencyConstructor, Histogram.new, hBounds,
      exponential_buckets, List.range_succ, bucketIndex])).1

theorem latencyConstructor_bounds :
    hBounds latencyConstructor = [10, 50, 250, 1250, 6250] := by
  norm_num [hBounds, latencyConstructor, Histogram.new, exponential_buckets,
    List.range_succ, List.map_map, Function.comp]

/-- C3: `exponential_buckets base factor count` yields
`boundary[i] = base * factor ^ i` for `i < count` (and nothing else); for
positive base and factor above 1 the boundaries are strictly increasing
and all positive; with the program's parameters (base 10, factor 5,
count 5) they are 10, 50, 250, 1250, 6250, an observation of 7 falls into
the bucket with boundary 10 (index 0), and an observation of 10000 falls
into the implicit overflow bucket (no explicit bucket matches). -/
theorem exponential_buckets_spec :
    (∀ (base factor : ℚ) (n i : ℕ),
        (exponential_buckets base factor n)[i]?
          = if i < n then some (base * factor ^ i) else none) ∧
    (∀ (base factor : ℚ) (n : ℕ), 0 < base → 1 < factor →
        List.Pairwise (· < ·) (exponential_buckets base factor n) ∧
        ∀ b ∈ exponential_buckets base factor n, 0 < b) ∧
    exponential_buckets 10 5 5 = [10, 50, 250, 1250, 6250] ∧
    bucketIndex 7 (exponential_buckets 10 5 5) = some 0 ∧
    bucketIndex 10000 (exponential_buckets 10 5 5) = none := by
  have hval : exponential_buckets 10 5 5 = [10, 50, 250, 1250, 6250] := by
    norm_num [exponential_buckets, List.range_succ]
  refine ⟨?_, ?_, hval, ?_, ?_⟩
  · intro base factor n i
    by_cases hi : i < n
    · simp [exponential_buckets, List.getElem?_map, List.getElem?_range hi,
        hi]
    · rw [if_neg hi]
      refine List.getElem?_eq_none ?_
      simp [exponential_buckets]
      omega
  · intro base factor n hb hf
    have hf0 : (0 : ℚ) < factor := lt_trans zero_lt_one hf
    constructor
    · unfold exponential_buckets
      refine List.pairwise_map.mpr ?_
      refine (List.pairwise_lt_range n).imp ?_
      intro a b hab
      exact mul_lt_mul_of_pos_left (pow_lt_pow_right₀ hf hab) hb
    · intro b hbmem
      simp only [exponential_buckets, List.mem_map] at hbmem
      obtain ⟨i, _, rfl⟩ := hbmem
      exact mul_pos hb (pow_pos hf0 i)
  · rw [hval]
    norm_num [bucketIndex]
  · rw [hval]
    norm_num [bucketIndex]

/-- Witness for C3's conditional part at the program's parameters: the
generated boundaries are strictly increasing. -/
theorem exponential_buckets_spec_witness :
    List.Pairwise (· < ·) (exponential_buckets 10 5 5) :=
  (exponential_buckets_spec.2.1 10 5 5 (by norm_num) (by norm_num)).1

/-- C6: negative observation values are accepted without rejection
(`duration_handler` always forwards `body.duration as f64` to the
histogram observe operation) and fall into the first bucket whose boundary
is ≥ the value — for the program's boundaries the bucket with boundary 10
(index 0) — while the running sum and count are updated as for any other
value. -/
theorem negative_values_accepted (v : ℚ) (hv : v < 0) :
    (∀ (m : List (LatencyLabels × Histogram)) (body : LatencyInfo),
        (duration_handler m body).1
          = hisg_request m (durationLabels body) (body.duration : ℚ)) ∧
    bucketIndex v (hBounds latencyConstructor) = some 0 ∧
    ∀ h : Histogram,
      (observe h v).sum = h.sum + v ∧ (observe h v).count = h.count + 1 := by
  refine ⟨fun m body => rfl, ?_, fun h => ⟨rfl, rfl⟩⟩
  rw [latencyConstructor_bounds]
  have h10 : v ≤ 10 := le_trans hv.le (by norm_num)
  simp [bucketIndex, h10]

/-- Witness for C6 at the concrete observation value −1. -/
theorem negative_values_accepted_witness :
    bucketIndex (-1) (hBounds latencyConstructor) = some 0 :=
  (negative_values_accepted (-1) (by norm_num)).2.1

theorem interleave_nil_left (ys zs : List CounterStep)
    (h : Interleave [] ys zs) : zs = ys := by
  induction ys generalizing zs with
  | nil => cases h; rfl
  | cons y ys ih =>
    cases h with
    | right _ _ _ _ h' => rw [ih _ h']

theorem interleave_nil_right (xs zs : List CounterStep)
    (h : Interleave xs [] zs) : zs = xs := by
  induction xs generalizing zs with
  | nil => cases h; rfl
  | cons x xs ih =>
    cases h with
    | left _ _ _ _ h' => rw [ih _ h']

/-- C4: when two threads each run `inc_requests` for the same
previously-unseen LabelSet — each thread being the atomic get-or-create
step (performed under the family's write lock) followed by the atomic
increment of the shared instance — every interleaving of the two threads
leaves exactly one entry for that LabelSet, with value 2: never two
entries, never a lost increment. -/
theorem get_or_create_race_free (l : AppLabels) (zs : List CounterStep)
    (h : Interleave (incThread l) (incThread l) zs) :
    runSteps [] zs = [(l, 2)] := by
  unfold incThread at h
  cases h with
  | left _ _ _ _ h₁ =>
    cases h₁ with
    | left _ _ _ _ h₂ =>
      rw [interleave_nil_left _ _ h₂]
      simp [runSteps, runStep, getOrCreate, famFind, famUpdate]
    | right _ _ _ _ h₂ =>
      cases h₂ with
      | left _ _ _ _ h₃ =>
        rw [interleave_nil_left _ _ h₃]
        simp [runSteps, runStep, getOrCreate, famFind, famUpdate]
      | right _ _ _ _ h₃ =>
        rw [interleave_nil_right _ _ h₃]
        simp [runSteps, runStep, getOrCreate, famFind, famUpdate]
  | right _ _ _ _ h₁ =>
    cases h₁ with
    | left _ _ _ _ h₂ =>
      cases h₂ with
      | left _ _ _ _ h₃ =>
        rw [interleave_nil_left _ _ h₃]
        simp [runSteps, runStep, getOrCreate, famFind, famUpdate]
      | right _ _ _ _ h₃ =>
        rw [interleave_nil_right _ _ h₃]
        simp [runSteps, runStep, getOrCreate, famFind, famUpdate]
    | right _ _ _ _ h₂ =>
      rw [interleave_nil_right _ _ h₂]
      simp [runSteps, runStep, getOrCreate, famFind, famUpdate]

/-- Witness for C4 at a concrete interleaving of the two increment threads
against the previously-unseen test LabelSet. -/
theorem get_or_create_race_free_witness :
    runSteps []
        [CounterStep.getOrCreateStep testLabels,
         CounterStep.incStep testLabels,
         CounterStep.getOrCreateStep testLabels,
         CounterStep.incStep testLabels]
      = [(testLabels, 2)] :=
  get_or_create_race_free testLabels _
    (Interleave.left _ _ _ _ (Interleave.left _ _ _ _
      (Interleave.right _ _ _ _ (Interleave.right _ _ _ _ Interleave.nil))))

/-! Helper lemmas for the encoding pass. -/

section EncodeLemmas

variable {K : Type} {V : Type} [DecidableEq K]

theorem familyKeys_famUpdate (m : List (K × V)) (k : K) (f : V → V) :
    familyKeys (famUpdate m k f) = familyKeys m := by
  induction m with
  | nil => rfl
  | cons p rest ih =>
    rcases p with ⟨k', v⟩
    by_cases hk : k' = k
    · simp [famUpdate, familyKeys, hk]
    · simp only [famUpdate, if_neg hk, familyKeys, List.map_cons]
      rw [show List.map Prod.fst (famUpdate rest k f) = familyKeys (famUpdate rest k f) from rfl, ih]
      rfl

theorem famFind_isSome_iff (m : List (K × V)) (k : K) :
    (famFind m k).isSome ↔ k ∈ familyKeys m := by
  induction m with
  | nil => simp [famFind, familyKeys]
  | cons p rest ih =>
    rcases p with ⟨k', v⟩
    by_cases hk : k' = k
    · simp [famFind, familyKeys, hk]
    · simp [famFind, familyKeys, hk, Ne.symm hk, ih]

theorem famReach_keys_nodup (m : List (K × V)) (h : FamReach m) :
    (familyKeys m).Nodup := by
  induction h with
  | empty => simp [familyKeys]
  | step m k init f hm ih =>
    unfold famOp
    rw [familyKeys_famUpdate]
    by_cases hs : (famFind m k).isSome
    · simpa [getOrCreate, hs] using ih
    · unfold getOrCreate
      rw [if_neg hs]
      simp only [familyKeys, List.map_cons]
      refine List.nodup_cons.mpr ⟨?_, ih⟩
      intro hmem
      exact hs ((famFind_isSome_iff m k).mpr hmem)

end EncodeLemmas

/-- C8: in every snapshot the encoder produces from a family state
reachable by get-or-create-then-mutate operations, each currently-tracked
LabelSet appears exactly once among the family block's data lines (count
1), and an untracked LabelSet appears not at all (count 0) — no
duplicates, no omissions, regardless of iteration order. -/
theorem encode_lists_each_labelset_once {K V : Type} [DecidableEq K]
    (m : List (K × V)) (k : K) (hreach : FamReach m) :
    (encodeBlockKeys m).count k
      = if (famFind m k).isSome then 1 else 0 := by
  have hnd : (familyKeys m).Nodup := famReach_keys_nodup m hreach
  by_cases hs : (famFind m k).isSome
  · rw [if_pos hs]
    exact List.count_eq_one_of_mem hnd ((famFind_isSome_iff m k).mp hs)
  · rw [if_neg hs]
    refine List.count_eq_zero.mpr ?_
    intro hmem
    exact hs ((famFind_isSome_iff m k).mpr hmem)

/-- Witness for C8 at a concrete reachable state: after one increment of
the test LabelSet from the empty family, the encoded block lists that
LabelSet exactly once. -/
theorem encode_lists_each_labelset_once_witness :
    (encodeBlockKeys (inc_requests [] testLabels)).count testLabels = 1 := by
  rw [encode_lists_each_labelset_once (inc_requests [] testLabels) testLabels
    (FamReach.step [] testLabels 0 (· + 1) FamReach.empty)]
  rfl

/-- C7: if the aggregation state cannot be acquired for encoding (the
mutex lock fails) or encoding itself fails, `metrics_handler` fails as a
hard failure (a panic surfaced to the caller) and never returns a normal
response — in particular no stale, truncated, or partial body. -/
theorem metrics_handler_fails_hard {σ : Type} (lockResult : Option σ)
    (encodeFn : σ → Except String String)
    (hfail : lockResult = none ∨
      ∃ st e, lockResult = some st ∧ encodeFn st = Except.error e) :
    (metrics_handler lockResult encodeFn).isOk = false := by
  rcases hfail with hnone | ⟨st, e, hst, henc⟩
  · subst hnone
    rfl
  · subst hst
    simp [metrics_handler, henc, HandlerOutcome.isOk]

/-- Witness for C7 at a concrete failed lock acquisition. -/
theorem metrics_handler_fails_hard_witness :
    (metrics_handler (none : Option Unit)
        (fun _ => Except.ok "")).isOk = false :=
  metrics_handler_fails_hard none (fun _ => Except.ok "") (Or.inl rfl)

/-- C9: the family value registered into the Registry in `main` is a clone
sharing the original's storage (cloning the `Arc` yields the same storage
cell), so an increment performed through the handlers' family handle is
visible, already incremented, to the registry's encoder — after one
increment of the test LabelSet from the initial state the encoder reads 1,
not an independent perpetually-zero copy's 0. -/
theorem registry_shares_family_storage :
    registeredRequestsFamily = mainRequestsFamily ∧
    (∀ (hp : CounterHeap) (l : AppLabels),
        encodedCounterValue (heapIncRequests hp mainRequestsFamily l)
            registeredRequestsFamily l
          = some ((famFind (hp.store mainRequestsFamily.ref) l).getD 0 + 1)) ∧
    encodedCounterValue
        (heapIncRequests initialCounterHeap mainRequestsFamily testLabels)
        registeredRequestsFamily testLabels = some 1 := by
  refine ⟨rfl, ?_, ?_⟩
  · intro hp l
    simp [encodedCounterValue, heapIncRequests, registeredRequestsFamily,
      cloneFamily, mainRequestsFamily, famFind_inc_requests_self]
  · rfl

/-- C10: the method label is never taken from any request payload: the
test handler fixes it to GET, and the script and duration handlers fix it
to POST, for every accepted body — so every LabelSet entering the
aggregation core carries a closed-enum Method value. -/
theorem method_label_fixed_by_handlers :
    testLabels.method = Method.Get ∧
    (∀ body : AppInfo, (scriptLabels body).method = Method.Post) ∧
    (∀ body : LatencyInfo, (durationLabels body).method = Method.Post) ∧
    (∀ m : List (AppLabels × ℕ),
        (test_handler m).1 = inc_requests m testLabels) ∧
    (∀ (m : List (AppLabels × ℕ)) (body : AppInfo),
        (script_handler m body).1 = inc_requests m (scriptLabels body)) ∧
    (∀ (m : List (LatencyLabels × Histogram)) (body : LatencyInfo),
        (duration_handler m body).1
          = hisg_request m (durationLabels body) (body.duration : ℚ)) :=
  ⟨rfl, fun _ => rfl, fun _ => rfl, fun _ => rfl, fun _ _ => rfl,
    fun _ _ => rfl⟩

end RsP8s
